import Mathlib

/-!
Shallow embedding of `src/pygam.py` (a logistic GAM: B-spline bases, knot
generation, feature typing, penalized IRLS optimizer, feature indexing) over
exact rational arithmetic, together with theorems settling the frozen claims
about it.  Machine floats are modelled as exact rationals; `np.finfo(float64).eps`
is exactly 2 ^ (-52), so `sqrt(EPS)` is exactly 2 ^ (-26).  Vectorized numpy
code acting row-by-row is embedded as per-row functions on lists.
-/

/- ------------------------------------------------------------------ -/
/- B-spline basis builder (source lines 49-79, `b_spline_basis`)       -/
/- ------------------------------------------------------------------ -/

/-- ascending sort of a list of rationals, embedding `np.sort`. -/
def sortK (l : List ℚ) : List ℚ := List.insertionSort (· ≤ ·) l

/-- augmented knots (source line 54): `order-1` copies of the minimum knot,
the sorted knots, `order-1` copies of the maximum knot.  For a nonempty array,
`np.min` / `np.max` are the head / last of the sorted array. -/
def augKnots (knots : List ℚ) (order : ℕ) : List ℚ :=
  List.replicate (order - 1) ((sortK knots).headD 0) ++ sortK knots ++
    List.replicate (order - 1) ((sortK knots).getLastD 0)

/-- order-1 Haar bases for one row (source lines 56-58): indicator of
`[t_j, t_j+1)` per column, then the boundary-extension special cases: the
column `-order` forced to 1 when `x` is at or beyond the last augmented knot,
and the column `order` forced to 1 when `x` is below the first augmented knot.
Out-of-range `List.set` is a no-op (numpy instead raises an IndexError for the
second write when `order = 1` and there are only 2 knots; theorems below
exclude that configuration). -/
def haarRow (t : List ℚ) (x : ℚ) (order : ℕ) : List ℚ :=
  let base := (List.range (t.length - 1)).map
    (fun j => if t.getD j 0 ≤ x ∧ x < t.getD (j+1) 0 then (1:ℚ) else 0)
  let base1 := if t.getLastD 0 ≤ x then base.set (base.length - order) 1 else base
  if x < t.headD 0 then base1.set order 1 else base1

/-- one step of the De Boor recursion (source lines 63-74) at level `m`:
column `j` of the new bases blends columns `j` and `j+1` of the old ones,
with any blending quotient whose denominator vanishes replaced by 0
(the `maskleft`/`maskright` bookkeeping). -/
def deBoorStep (t : List ℚ) (x : ℚ) (m : ℕ) (b : List ℚ) : List ℚ :=
  (List.range (t.length - m)).map (fun j =>
    (if t.getD (j+m-1) 0 = t.getD j 0 then 0
     else (x - t.getD j 0) / (t.getD (j+m-1) 0 - t.getD j 0) * b.getD j 0) +
    (if t.getD (j+m) 0 = t.getD (j+1) 0 then 0
     else (t.getD (j+m) 0 - x) / (t.getD (j+m) 0 - t.getD (j+1) 0) * b.getD (j+1) 0))

/-- one row of the matrix returned by `b_spline_basis` (source lines 49-79):
Haar initialization followed by the De Boor recursion for `m = 2 .. order`.
All the numpy operations in the source act row-by-row, so the full matrix is
the map of this function over the feature vector. -/
def b_spline_basis_row (x : ℚ) (knots : List ℚ) (order : ℕ) : List ℚ :=
  let t := augKnots knots order
  (List.range' 2 (order - 1)).foldl (fun b m => deBoorStep t x m b) (haarRow t x order)

/-- the full basis matrix of `b_spline_basis`, one row per observation. -/
def b_spline_basis (xs : List ℚ) (knots : List ℚ) (order : ℕ) : List (List ℚ) :=
  xs.map (fun x => b_spline_basis_row x knots order)

/- ------------------------------------------------------------------ -/
/- Knot generator (source lines 33-47, `gen_knots`)                   -/
/- ------------------------------------------------------------------ -/

/-- embedding of `np.linspace a b num`: `num` evenly spaced points from `a`
to `b` inclusive. -/
def linspace (a b : ℚ) (num : ℕ) : List ℚ :=
  (List.range num).map (fun j : ℕ => a + (b - a) * (j : ℚ) / ((num : ℚ) - 1))

/-- embedding of `np.percentile data q` with the default linear interpolation:
with the data sorted ascending, the value at fractional position
`q/100 * (len-1)`. -/
def percentile (data : List ℚ) (q : ℚ) : ℚ :=
  let s := sortK data
  let pos := q / 100 * ((s.length : ℚ) - 1)
  let i := (Int.toNat ⌊pos⌋)
  s.getD i 0 + (pos - i) * (s.getD (i+1) (s.getD i 0) - s.getD i 0)

/-- categorical branch of `gen_knots` (source line 41):
`np.r_[min - 0.5, unique + 0.5]`; `np.unique` is the ascending list of
distinct values. -/
def gen_knots_cat (data : List ℚ) : List ℚ :=
  ((sortK data).headD 0 - 1/2) :: ((sortK data).dedup.map (fun v => v + 1/2))

/-- embedding of `gen_knots` (source lines 33-47); the dtype argument is
`true` for `np.int` (categorical) and `false` for `np.float` (continuous);
`[1:-1]` drops the first and last entries when boundaries are excluded. -/
def gen_knots (data : List ℚ) (isInt : Bool) (n_knots : ℕ) (add_boundaries : Bool) : List ℚ :=
  let knots := if isInt then gen_knots_cat data
               else (linspace 0 100 (n_knots + 2)).map (percentile data)
  if add_boundaries then knots else (knots.drop 1).dropLast

/- ------------------------------------------------------------------ -/
/- Feature typing (source lines 16-31, `check_dtype_`)                -/
/- ------------------------------------------------------------------ -/

/-- the contiguity test `check_dtype_` applies to a column classified as
categorical (source line 24): `np.max(feat) - np.min(feat) == len(np.unique(feat)) - 1`;
the assert fires (a fatal input error) exactly when this returns `false`.
Integer-dtype columns always reach this test (source line 23); the jitter
heuristic only adds float columns, which does not affect the claims below. -/
def categorical_contiguity_check (feat : List ℤ) : Bool :=
  (feat.max?.getD 0) - (feat.min?.getD 0) == (feat.dedup.length : ℤ) - 1

/-- ascending sort of a list of integers. -/
def sortZ (l : List ℤ) : List ℤ := List.insertionSort (· ≤ ·) l

/-- the property claimed by the spec for accepted categorical columns:
the values are exactly the contiguous integers `0 .. k-1` where `k` is the
number of distinct values. -/
def values_are_zero_to_k_minus_one (feat : List ℤ) : Bool :=
  (sortZ feat).dedup == (List.range feat.dedup.length).map (fun n => (n : ℤ))

/- ------------------------------------------------------------------ -/
/- IRLS pieces: weights, mask, singular-value handling                -/
/- ------------------------------------------------------------------ -/

/-- diagonal entry of the matrix returned by `weights_` (source lines 317-319).
The source computes `sqrt_proba = proba ** 0.5` and then
`sqrt_proba * (1 - sqrt_proba)`; the argument here is `sqrt_proba`
(the exact square root of the probability, irrational in general, so the
function is stated on the square root itself). -/
def weights_entry (sqrt_proba : ℚ) : ℚ := sqrt_proba * (1 - sqrt_proba)

/-- embedding of `mask_` (source lines 321-324): the boolean mask
`(proba != 0) * (proba != 1)`, exact (non-tolerance) comparisons. -/
def mask_ (proba : List ℚ) : List Bool :=
  proba.map (fun p => decide (p ≠ 0) && decide (p ≠ 1))

/-- the assert in `mask_` (source line 323) passes iff the mask keeps at
least one observation; `mask_` raises the fatal
error `increase regularization` exactly when this is `false`. -/
def mask_assert_passes (proba : List ℚ) : Bool :=
  (mask_ proba).count true != 0

/-- maximum of a list, embedding `np.max` / `.max()` on a nonempty array. -/
def listMax (l : List ℚ) : ℚ := l.foldr max (l.headD 0)

/-- square root of float64 machine epsilon: `EPS = 2 ^ (-52)` exactly
(source line 14), so `np.sqrt(EPS) = 2 ^ (-26)` exactly. -/
def sqrtEPS : ℚ := 1 / 2 ^ 26

/-- the small-singular-value mask computed at source line 358:
`d <= d.max() * np.sqrt(EPS)`. -/
def svd_mask (d : List ℚ) : List Bool :=
  d.map (fun v => decide (v ≤ listMax d * sqrtEPS))

/-- the diagonal entries actually written into `Dinv` by
`np.fill_diagonal(Dinv, d ** -1)` (source line 360): every singular value is
inverted; `svd_mask` is never applied anywhere in the source. -/
def dinv_entries (d : List ℚ) : List ℚ := d.map (fun v => v⁻¹)

/-- the diagonal entries the claim (and the spec) say should be written:
singular values at or below the relative tolerance are zeroed out instead of
inverted.  Stated from the spec sentence for comparison with `dinv_entries`. -/
def dinv_entries_claimed (d : List ℚ) : List ℚ :=
  (d.zip (svd_mask d)).map (fun vm => if vm.2 then 0 else vm.1⁻¹)

/- ------------------------------------------------------------------ -/
/- The two IRLS solve strategies (source lines 326-423)               -/
/- ------------------------------------------------------------------ -/

/-- vertical stack of two square matrices, embedding
`np.vstack([R, E.T])` (source line 357). -/
def vstack2 {m : ℕ} (A B : Matrix (Fin m) (Fin m) ℚ) : Matrix (Fin m ⊕ Fin m) (Fin m) ℚ :=
  Matrix.of (fun i j => Sum.elim (fun i' => A i' j) (fun i' => B i' j) i)

/-- the `Dinv` matrix of the stable strategy (source lines 339 and 360):
an `m × 2m` zero matrix whose main diagonal is filled with the inverted
singular values `d ** -1`. -/
def stable_Dinv {m : ℕ} (d : Fin m → ℚ) : Matrix (Fin m) (Fin m ⊕ Fin m) ℚ :=
  Matrix.of (fun i j => Sum.elim (fun j' => if j' = i then (d i)⁻¹ else 0) (fun _ => 0) j)

/-- the pseudo-inverse-like matrix `B` of the stable strategy (source
lines 356-363), as a function of the factors returned by the numpy calls:
`Q, R` from `np.linalg.qr(WB)`, `U, d, Vt` from the SVD of `vstack([R, E.T])`.
`U1 = U[:m, :]` keeps the top `m` rows of `U`, and
`B = Vt.T @ Dinv @ U1.T @ Q.T`. -/
def pirls_stable_B {n m : ℕ} (Q : Matrix (Fin n) (Fin m) ℚ)
    (U : Matrix (Fin m ⊕ Fin m) (Fin m ⊕ Fin m) ℚ) (d : Fin m → ℚ)
    (Vt : Matrix (Fin m) (Fin m) ℚ) : Matrix (Fin m) (Fin n) ℚ :=
  let U1 : Matrix (Fin m) (Fin m ⊕ Fin m) ℚ := Matrix.of (fun i j => U (Sum.inl i) j)
  Vt.transpose * stable_Dinv d * U1.transpose * Q.transpose

/-- the coefficient update of one stable-strategy iteration
(source lines 353-364): the stable strategy premultiplies the raw pseudo-data
by the weight matrix (`pseudo_data = weights.dot(...)`, line 353) and then
computes `b_new = B.dot(pseudo_data)`. -/
def pirls_stable_update {n m : ℕ} (Q : Matrix (Fin n) (Fin m) ℚ)
    (U : Matrix (Fin m ⊕ Fin m) (Fin m ⊕ Fin m) ℚ) (d : Fin m → ℚ)
    (Vt : Matrix (Fin m) (Fin m) ℚ) (W : Matrix (Fin n) (Fin n) ℚ)
    (z : Fin n → ℚ) : Fin m → ℚ :=
  (pirls_stable_B Q U d Vt).mulVec (W.mulVec z)

/-- the coefficient update of one naive-strategy iteration (source
lines 405-411): `BW = bases.T.dot(weights)`, `inner = inv(BW.dot(bases) + P)`
(the matrix inverse is passed in as `inner`, the value returned by
`sp.sparse.linalg.inv`, with its defining property checked where this is
used), and `b_new = inner.dot(BW).dot(pseudo_data)` where the raw pseudo-data
is NOT premultiplied by the weights (line 406). -/
def pirls_naive_update {n m : ℕ} (bases : Matrix (Fin n) (Fin m) ℚ)
    (W : Matrix (Fin n) (Fin n) ℚ) (inner : Matrix (Fin m) (Fin m) ℚ)
    (z : Fin n → ℚ) : Fin m → ℚ :=
  (inner * (bases.transpose * W)).mulVec z

/-- concrete one-observation, one-basis instance used to compare the two
strategies: design matrix `[[1]]`, weight matrix `[[3]]`, stabilized penalty
`S = [[16]]` with Cholesky factor `E = [[4]]`, raw pseudo-data `[1]`. -/
def cX : Matrix (Fin 1) (Fin 1) ℚ := Matrix.of (fun _ _ => 1)

/-- the weight matrix of the concrete instance. -/
def cW : Matrix (Fin 1) (Fin 1) ℚ := Matrix.of (fun _ _ => 3)

/-- the Q factor of `np.linalg.qr(cW * cX)`. -/
def cQ : Matrix (Fin 1) (Fin 1) ℚ := Matrix.of (fun _ _ => 1)

/-- the R factor of `np.linalg.qr(cW * cX)`. -/
def cR : Matrix (Fin 1) (Fin 1) ℚ := Matrix.of (fun _ _ => 3)

/-- the Cholesky factor of the stabilized penalty of the concrete instance. -/
def cE : Matrix (Fin 1) (Fin 1) ℚ := Matrix.of (fun _ _ => 4)

/-- the stabilized penalty matrix of the concrete instance. -/
def cS : Matrix (Fin 1) (Fin 1) ℚ := Matrix.of (fun _ _ => 16)

/-- the U factor of the SVD of `vstack2 cR cE.transpose`. -/
def cU : Matrix (Fin 1 ⊕ Fin 1) (Fin 1 ⊕ Fin 1) ℚ :=
  Matrix.of (fun i j =>
    Sum.elim (fun _ => Sum.elim (fun _ => (3:ℚ)/5) (fun _ => -4/5) j)
             (fun _ => Sum.elim (fun _ => (4:ℚ)/5) (fun _ => 3/5) j) i)

/-- the singular values of `vstack2 cR cE.transpose`. -/
def cd : Fin 1 → ℚ := fun _ => 5

/-- the Vt factor of the SVD of `vstack2 cR cE.transpose`. -/
def cVt : Matrix (Fin 1) (Fin 1) ℚ := Matrix.of (fun _ _ => 1)

/-- the rectangular singular-value matrix of that SVD
(so that `vstack2 cR cE.transpose = cU * cDfull * cVt`). -/
def cDfull : Matrix (Fin 1 ⊕ Fin 1) (Fin 1) ℚ :=
  Matrix.of (fun i _ => Sum.elim (fun _ => (5:ℚ)) (fun _ => 0) i)

/-- the inverse of `cX.transpose * cW * cX + cS = [[19]]`, the matrix
`sp.sparse.linalg.inv` returns inside the naive strategy. -/
def cInner : Matrix (Fin 1) (Fin 1) ℚ := Matrix.of (fun _ _ => 1/19)

/-- the raw pseudo-data vector of the concrete instance. -/
def cz : Fin 1 → ℚ := fun _ => 1

/- ------------------------------------------------------------------ -/
/- Feature-range selection (source lines 528-546, `select_feature_`)  -/
/- ------------------------------------------------------------------ -/

/-- embedding of `select_feature_` (source lines 528-546): `none` models the
fatal assertion failure; `i = -1` returns `np.arange(sum(n_bases_))`;
otherwise the contiguous `np.arange(a, a+b)` with `a = sum(n_bases_[:i])`
and `b = n_bases_[i]`. -/
def select_feature_ (n_bases_ : List ℕ) (i : ℤ) : Option (List ℕ) :=
  if (n_bases_.length : ℤ) ≤ i ∨ i < -1 then none
  else if i = -1 then some (List.range n_bases_.sum)
  else some (List.range' ((n_bases_.take i.toNat).sum) (n_bases_.getD i.toNat 0))

/- ------------------------------------------------------------------ -/
/- Prediction-time state (source lines 243-276, C9)                   -/
/- ------------------------------------------------------------------ -/

/-- the stored attributes of a fitted `LogisticGAM` instance touched or read
on the prediction path, plus the fit statistics and logs named by the claims
(source lines 100-119). -/
structure GAMState where
  knots_ : List (List ℚ)
  spline_order_ : List ℕ
  n_bases_ : List ℕ
  b_ : List ℚ
  cov_ : Option (List (List ℚ))
  edof_ : Option ℚ
  se_ : Option (List ℚ)
  scale_ : Option ℚ
  acc : List ℚ
  nll : List ℚ
  diffs : List ℚ
  deriving Repr, DecidableEq

/-- the `feature = -1` branch of `bases_` (source lines 263-269): builds the
design matrix (an intercept column of ones followed by each feature's
B-spline block) and REASSIGNS `n_bases_` to `[1]` followed by each block's
column count (`bases[-1].shape[1]`, the length of any row of the block;
numpy reports it from the first row's layout, and the length is the same for
every row).  The features iterated are `zip(X.T, knots_, spline_order_)`,
which truncates to the shortest of the three. -/
def bases_state (s : GAMState) (X : List (List ℚ)) : GAMState × List (List ℚ) :=
  let p := ((X.headD []).length ⊓ s.knots_.length) ⊓ s.spline_order_.length
  let mat := X.map (fun row =>
    1 :: List.flatten ((List.range p).map (fun f =>
      b_spline_basis_row (row.getD f 0) (s.knots_.getD f []) (s.spline_order_.getD f 1))))
  let nb := 1 :: ((List.range p).map (fun f =>
    (b_spline_basis_row ((X.headD []).getD f 0) (s.knots_.getD f []) (s.spline_order_.getD f 1)).length))
  ({ s with n_bases_ := nb }, mat)

/-- the model state after `predict_proba(X)` (source lines 243-244):
`predict_proba` calls `proba_(log_odds_(X))`; `log_odds_` calls
`bases_(X)` (the only state-touching step) and then the pure dot product
with `b_`; `proba_` is a pure sigmoid. -/
def predict_proba_state (s : GAMState) (X : List (List ℚ)) : GAMState :=
  (bases_state s X).1

/-- the model state after `predict(X)` (source lines 251-252):
`predict` is `predict_proba(X) > 0.5`, a pure threshold on the result. -/
def predict_state (s : GAMState) (X : List (List ℚ)) : GAMState :=
  predict_proba_state s X

/-- the log-odds vector computed by `log_odds_` at prediction time
(source lines 233-238): design matrix row dotted with the coefficients. -/
def log_odds_vals (s : GAMState) (X : List (List ℚ)) : List ℚ :=
  ((bases_state s X).2).map (fun row =>
    ((row.zip s.b_).map (fun ab => ab.1 * ab.2)).sum)

/- ------------------------------------------------------------------ -/
/- IRLS optimizer loop (source lines 341-381, C10)                    -/
/- ------------------------------------------------------------------ -/

/-- embedding of `phi_glm_` (source lines 172-183): the test
`if 'binomial' or 'poisson':` is a truth test on a nonempty string literal,
hence always true, so the function always returns `1.0`. -/
def phi_glm_ : ℚ := 1

/-- the per-iteration numerical core of `pirls_` (source lines 342-365),
treated as an oracle: from the current coefficients (and the fixed data,
design matrix and penalty factor) the iteration produces the logged training
accuracy and negative log-likelihood, the relative coefficient change
`diff = norm(b_ - b_new) / norm(b_new)`, the new coefficients, and the
convergence-branch statistics (edof estimate, covariance `B.dot(B.T) * scale`,
standard errors). -/
structure StepData where
  acc_val : ℚ
  nll_val : ℚ
  diff : ℚ
  b_new : List ℚ
  edof_val : ℚ
  cov_val : List (List ℚ)
  se_val : List ℚ
  deriving Repr

/-- the mutable state read and written by the `pirls_` iteration loop. -/
structure PirlsState where
  b_ : List ℚ
  scale_ : Option ℚ
  edof_ : Option ℚ
  cov_ : Option (List (List ℚ))
  se_ : Option (List ℚ)
  acc : List ℚ
  nll : List ℚ
  diffs : List ℚ
  deriving Repr, DecidableEq

/-- the iteration loop of `pirls_` (source lines 341-381): each pass appends
to the `acc` and `nll` logs, computes the update and the relative change,
replaces `b_`, appends to `diffs`, and on `diff < tol` assigns
`scale_ = phi_glm_()`, `edof_`, `cov_`, `se_` and returns; if the iteration
budget runs out the loop falls through (printing `did not converge`) with the
statistics untouched. -/
def pirls_loop (step : List ℚ → StepData) (tol : ℚ) : ℕ → PirlsState → PirlsState
  | 0, s => s
  | n + 1, s =>
    let d := step s.b_
    let s' : PirlsState :=
      { s with acc := s.acc ++ [d.acc_val], nll := s.nll ++ [d.nll_val],
               b_ := d.b_new, diffs := s.diffs ++ [d.diff] }
    if d.diff < tol then
      { s' with scale_ := some phi_glm_, edof_ := some d.edof_val,
                cov_ := some d.cov_val, se_ := some d.se_val }
    else
      pirls_loop step tol n s'

/-- a concrete iteration oracle used to witness the non-convergence theorem:
every iteration reports relative change 1 and prepends a coefficient. -/
def stepW : List ℚ → StepData := fun b =>
  { acc_val := 0, nll_val := 0, diff := 1, b_new := 0 :: b,
    edof_val := 0, cov_val := [], se_val := [] }

/-- the statistics fields of a cold-start model (source lines 110-119):
`edof_`, `se_`, `cov_`, `scale_` all start as `None`, and the logs start
empty; the loop is entered with the coefficient vector zero-initialized
(source lines 331-332). -/
def pirlsInitW : PirlsState :=
  { b_ := [0, 0], scale_ := none, edof_ := none, cov_ := none, se_ := none,
    acc := [], nll := [], diffs := [] }

/-- a concrete fitted model state used to witness the prediction frame
theorem: one feature with knots `[0, 1]`, order 2, hence basis counts
`[1, 2]` (intercept plus a 2-column spline block). -/
def gamStateW : GAMState :=
  { knots_ := [[0, 1]], spline_order_ := [2], n_bases_ := [1, 2],
    b_ := [1, 2, 3], cov_ := none, edof_ := none, se_ := none, scale_ := none,
    acc := [], nll := [], diffs := [] }

/-- a concrete prediction input for the frame-theorem witness. -/
def gamXW : List (List ℚ) := [[1/2]]

/-- monotonicity of a knot list read through `getD` (the sorted augmented
knot sequence satisfies this). -/
def MonoD (t : List ℚ) : Prop :=
  ∀ i j : ℕ, i ≤ j → j < t.length → t.getD i 0 ≤ t.getD j 0

/-- the degenerate-span invariant of the De Boor recursion: a level whose
bases `b` satisfy `SpanZero t s b` has every basis with a collapsed
supporting knot span `[t_k, t_{k+s}]` equal to zero; this is what makes the
repeated-knot masking of `deBoorStep` sum-preserving. -/
def SpanZero (t : List ℚ) (s : ℕ) (b : List ℚ) : Prop :=
  ∀ k : ℕ, k + s < t.length → t.getD k 0 = t.getD (k + s) 0 → b.getD k 0 = 0

/- ------------------------------------------------------------------ -/
/- Theorems                                                           -/
/- ------------------------------------------------------------------ -/

/-- C1: the claim says every singular value at or below the relative
tolerance `d.max() * sqrt(EPS)` is zeroed out rather than inverted when
`Dinv` is formed.  The code computes the mask (`svd_mask`, source line 358)
but never applies it: `np.fill_diagonal(Dinv, d ** -1)` (line 360) inverts
every singular value.  On the singular-value vector `[1, 2^-30]` the second
value is flagged by the mask yet written as `2^30`, not `0`. -/
theorem c1_small_singular_values_inverted_not_zeroed :
    svd_mask [1, 1/2^30] = [false, true] ∧
    dinv_entries [1, 1/2^30] = [1, 2^30] ∧
    dinv_entries [1, 1/2^30] ≠ dinv_entries_claimed [1, 1/2^30] := by
  refine ⟨?_, ?_, ?_⟩ <;>
    norm_num [svd_mask, dinv_entries, dinv_entries_claimed, listMax, sqrtEPS]

/-- C2: the claim says the IRLS weight for probability `p` is
`sqrt(p * (1-p))`.  The code (source lines 317-319) computes
`sqrt_proba * (1 - sqrt_proba)` = `sqrt(p) * (1 - sqrt(p))` instead.
At `p = 1/4` (whose exact square root is `1/2`) the computed entry is `1/4`,
whose square `1/16` differs from `p * (1-p) = 3/16`, so the computed entry is
not `sqrt(p * (1-p))`. -/
theorem c2_weights_entry_is_not_sqrt_p_one_minus_p :
    ((1:ℚ)/2) ^ 2 = 1/4 ∧
    weights_entry (1/2) = 1/4 ∧
    (weights_entry (1/2)) ^ 2 ≠ (1/4) * (1 - 1/4) := by
  refine ⟨by norm_num, by norm_num [weights_entry], by norm_num [weights_entry]⟩

/-- C3: the claim says one stable-strategy iteration and one naive-strategy
iteration produce the same updated coefficients.  On a concrete
one-observation, one-basis instance whose QR, SVD and Cholesky factors are
all exact rationals and verified below as side conditions, the stable update
is `9/25` and the naive update is `3/19`: the naive strategy multiplies the
square-root weight matrix into the system only once (and does not
premultiply the pseudo-data by it), so the two solves differ. -/
theorem c3_stable_and_naive_updates_differ :
    cW * cX = cQ * cR ∧
    cQ.transpose * cQ = 1 ∧
    vstack2 cR cE.transpose = cU * cDfull * cVt ∧
    cU.transpose * cU = 1 ∧
    cVt.transpose * cVt = 1 ∧
    cE * cE.transpose = cS ∧
    cInner * (cX.transpose * cW * cX + cS) = 1 ∧
    pirls_stable_update cQ cU cd cVt cW cz ≠ pirls_naive_update cX cW cInner cz := by
  refine ⟨?_, ?_, ?_, ?_, ?_, ?_, ?_, ?_⟩
  · ext i j
    simp [cW, cX, cQ, cR, Matrix.mul_apply, Fin.sum_univ_one]
  · ext i j
    fin_cases i; fin_cases j
    simp [cQ, Matrix.mul_apply, Fin.sum_univ_one]
  · ext i j
    rcases i with i | i <;>
      simp [vstack2, cR, cE, cU, cDfull, cVt, Matrix.mul_apply,
        Fin.sum_univ_one, Fintype.sum_sum_type]
  · ext i j
    rcases i with i | i <;> rcases j with j | j <;>
      simp [cU, Matrix.mul_apply, Fintype.sum_sum_type, Fin.sum_univ_one,
        Matrix.one_apply, eq_iff_true_of_subsingleton] <;> norm_num
  · ext i j
    fin_cases i; fin_cases j
    simp [cVt, Matrix.mul_apply, Fin.sum_univ_one, Matrix.one_apply]
  · ext i j
    simp [cE, cS, Matrix.mul_apply, Fin.sum_univ_one]
    norm_num
  · ext i j
    fin_cases i; fin_cases j
    simp [cInner, cX, cW, cS, Matrix.mul_apply, Fin.sum_univ_one, Matrix.one_apply]
    norm_num
  · intro h
    have h0 := congrFun h 0
    simp [pirls_stable_update, pirls_naive_update, pirls_stable_B, stable_Dinv,
      cQ, cU, cd, cVt, cW, cz, cX, cInner, Matrix.mulVec, Matrix.mul_apply,
      Matrix.dotProduct, Fintype.sum_sum_type, Fin.sum_univ_one] at h0
    norm_num at h0

/-- C5: the claim says a categorical column is rejected unless its values
are exactly the contiguous integers `0 .. k-1`.  The code only checks
`max - min == k - 1` (source line 24), which does not anchor the values at 0:
the integer column `[1, 2, 3]` passes the check even though its values are
not `{0, 1, 2}` (contradicting the code's own assertion message
`k categories must be mapped to integers in [0, k-1] interval`). -/
theorem c5_contiguity_check_accepts_nonzero_based_column :
    categorical_contiguity_check [1, 2, 3] = true ∧
    values_are_zero_to_k_minus_one [1, 2, 3] = false := by
  refine ⟨by decide, by decide⟩

/-- C4 counterexample: the claim says every row of `b_spline_basis` sums
to 1 for every knot vector whose minimum and maximum bound the feature
vector and every order >= 1, including the boundary-extension rows.  For the
knot vector `[0, 1, 1]` (whose minimum 0 and maximum 1 bound `x = 1`) at
order 2, the row at `x = 1` (at the last augmented knot, so the first
boundary-extension case applies) sums to 0: the repeated maximum knot makes
the interval receiving the boundary-extension `1` degenerate, and the
repeated-knot masking of the De Boor step then kills it. -/
theorem c4_row_sum_zero_on_repeated_max_knot :
    (sortK [0, 1, 1]).headD 0 ≤ (1:ℚ) ∧
    (1:ℚ) ≤ (sortK [0, 1, 1]).getLastD 0 ∧
    1 ≤ 2 ∧
    (b_spline_basis_row 1 [0, 1, 1] 2).sum = 0 ∧
    (b_spline_basis_row 1 [0, 1, 1] 2).sum ≠ 1 := by
  have hsum : (b_spline_basis_row 1 [0, 1, 1] 2).sum = 0 := by
    norm_num [b_spline_basis_row, haarRow, deBoorStep, augKnots, sortK,
      List.insertionSort, List.orderedInsert, List.range_succ, List.getD,
      List.replicate, List.range']
  refine ⟨by decide, by decide, by decide, hsum, by rw [hsum]; norm_num⟩

/-- C6: the assert in `mask_` fires (raising the fatal error) exactly when
every observation's probability is exactly 0 or exactly 1, and otherwise the
mask keeps exactly the observations whose probability differs from both
(exact equality, modelled by exact rational equality). -/
theorem c6_mask_fatal_iff_all_probabilities_saturated (proba : List ℚ) :
    (mask_assert_passes proba = false ↔ ∀ p ∈ proba, p = 0 ∨ p = 1) ∧
    (∀ i, i < proba.length →
      ((mask_ proba).getD i false = true ↔ (proba.getD i 0 ≠ 0 ∧ proba.getD i 0 ≠ 1))) := by
  constructor
  · simp only [mask_assert_passes, bne_eq_false_iff_eq, List.count_eq_zero, mask_,
      List.mem_map, not_exists]
    constructor
    · intro h p hp
      by_contra hc
      push_neg at hc
      exact h p ⟨hp, by simp [hc.1, hc.2]⟩
    · rintro h p ⟨hp, hdec⟩
      rcases h p hp with h0 | h0 <;> simp [h0] at hdec
  · intro i hi
    have hlen : i < (mask_ proba).length := by simpa [mask_] using hi
    rw [List.getD_eq_getElem _ _ hlen, List.getD_eq_getElem _ _ hi]
    simp [mask_]

/-- C6 witness: at `proba = [0, 1/2]` the mask keeps the second
observation, obtained from the characterization theorem. -/
theorem c6_mask_witness : (mask_ [(0:ℚ), 1/2]).getD 1 false = true := by
  have h := (c6_mask_fatal_iff_all_probabilities_saturated [0, 1/2]).2 1 (by norm_num)
  exact h.mpr (by norm_num [List.getD])

/-- sum of a one-longer prefix: `take (i+1)` adds the `i`-th entry. -/
theorem take_sum_succ (nb : List ℕ) (i : ℕ) (h : i < nb.length) :
    (nb.take (i+1)).sum = (nb.take i).sum + nb.getD i 0 := by
  rw [List.take_succ, List.sum_append, List.getD_eq_getElem _ _ h]
  simp [List.getElem?_eq_getElem h]

/-- the end of feature `i`'s range is at most the start of feature `j`'s
range when `i < j`. -/
theorem take_sum_mono_add (nb : List ℕ) (i j : ℕ) (hij : i < j) (hj : j ≤ nb.length) :
    (nb.take i).sum + nb.getD i 0 ≤ (nb.take j).sum := by
  have hi : i < nb.length := lt_of_lt_of_le hij hj
  rw [← take_sum_succ nb i hi]
  have h1 : (nb.take j).take (i+1) = nb.take (i+1) := by
    rw [List.take_take]
    congr 1
    omega
  calc (nb.take (i+1)).sum = ((nb.take j).take (i+1)).sum := by rw [h1]
    _ ≤ ((nb.take j).take (i+1)).sum + ((nb.take j).drop (i+1)).sum := Nat.le_add_right _ _
    _ = (nb.take j).sum := List.sum_take_add_sum_drop _ _

/-- concatenating the per-feature contiguous ranges, in feature order,
yields one contiguous range covering all basis columns. -/
theorem select_ranges_flatten (nb : List ℕ) : ∀ s : ℕ,
    ((List.range nb.length).map (fun i => List.range' (s + (nb.take i).sum) (nb.getD i 0))).flatten
      = List.range' s nb.sum := by
  induction nb with
  | nil => intro s; simp
  | cons n tl ih =>
    intro s
    have hstep := ih (s + n)
    rw [List.length_cons, List.range_succ_eq_map, List.map_cons, List.map_map,
      List.flatten_cons]
    have hfun : ((fun i => List.range' (s + ((n :: tl).take i).sum) ((n :: tl).getD i 0)) ∘ Nat.succ)
        = (fun i => List.range' ((s + n) + (tl.take i).sum) (tl.getD i 0)) := by
      funext i
      simp only [Function.comp_apply, List.take_succ_cons, List.sum_cons, List.getD_cons_succ]
      rw [Nat.add_assoc]
    rw [hfun, hstep]
    simp only [List.take_zero, List.sum_nil, Nat.add_zero, List.getD_cons_zero]
    rw [List.range'_append_1, Nat.add_comm, List.sum_cons]

/-- C8: for a non-empty basis-count list, `select_feature_(-1)` is the full
contiguous range `[0, total)`; each in-range feature index yields its own
contiguous range; distinct features' ranges are disjoint; concatenating the
feature ranges in order covers the full range exactly; and the fatal
assertion fires exactly for `i >= len(n_bases_)` or `i < -1`. -/
theorem c8_select_feature_ranges (nb : List ℕ) (_hnb : nb ≠ []) :
    (select_feature_ nb (-1) = some (List.range nb.sum)) ∧
    (∀ i : ℕ, i < nb.length →
      select_feature_ nb (i : ℤ) = some (List.range' ((nb.take i).sum) (nb.getD i 0))) ∧
    (∀ i j : ℕ, i < nb.length → j < nb.length → i ≠ j →
      ∀ x, x ∈ (select_feature_ nb (i : ℤ)).getD [] →
        x ∉ (select_feature_ nb (j : ℤ)).getD []) ∧
    (((List.range nb.length).map (fun i : ℕ => (select_feature_ nb (i : ℤ)).getD [])).flatten
      = List.range nb.sum) ∧
    (∀ i : ℤ, select_feature_ nb i = none ↔ ((nb.length : ℤ) ≤ i ∨ i < -1)) := by
  have hsel : ∀ i : ℕ, i < nb.length →
      select_feature_ nb (i : ℤ) = some (List.range' ((nb.take i).sum) (nb.getD i 0)) := by
    intro i hi
    unfold select_feature_
    have h1 : ¬ ((nb.length : ℤ) ≤ (i : ℤ) ∨ (i : ℤ) < -1) := by
      push_neg
      constructor <;> [exact_mod_cast hi; omega]
    rw [if_neg h1, if_neg (by omega : ¬ (i : ℤ) = -1)]
    simp
  have key : ∀ i j : ℕ, i < j → j < nb.length →
      ∀ x, x ∈ (select_feature_ nb (i : ℤ)).getD [] →
        x ∉ (select_feature_ nb (j : ℤ)).getD [] := by
    intro i j hij hj x hx hx'
    rw [hsel i (hij.trans hj), Option.getD_some] at hx
    rw [hsel j hj, Option.getD_some] at hx'
    rw [List.mem_range'_1] at hx hx'
    have := take_sum_mono_add nb i j hij (le_of_lt hj)
    omega
  refine ⟨?_, hsel, ?_, ?_, ?_⟩
  · unfold select_feature_
    have h1 : ¬ ((nb.length : ℤ) ≤ -1 ∨ (-1 : ℤ) < -1) := by
      push_neg
      constructor <;> omega
    rw [if_neg h1, if_pos rfl]
  · intro i j hi hj hij x hx
    rcases Nat.lt_or_ge i j with h | h
    · exact key i j h hj x hx
    · have hji : j < i := lt_of_le_of_ne h (fun e => hij e.symm)
      intro hx'
      exact key j i hji hi x hx' hx
  · have hmap : (List.range nb.length).map (fun i : ℕ => (select_feature_ nb (i : ℤ)).getD [])
        = (List.range nb.length).map (fun i => List.range' (0 + (nb.take i).sum) (nb.getD i 0)) := by
      apply List.map_congr_left
      intro i hi
      rw [List.mem_range] at hi
      rw [hsel i hi, Option.getD_some, Nat.zero_add]
    rw [hmap, select_ranges_flatten nb 0, List.range_eq_range']
  · intro i
    by_cases h : ((nb.length : ℤ) ≤ i ∨ i < -1)
    · simp [select_feature_, h]
    · have hne : select_feature_ nb i ≠ none := by
        unfold select_feature_
        rw [if_neg h]
        split_ifs <;> simp
      exact iff_of_false hne h

/-- C8 witness: the theorem applied to the concrete basis-count list
`[1, 2]`: selecting all features yields `[0, 1, 2]`. -/
theorem c8_select_feature_witness :
    ([1, 2] : List ℕ) ≠ [] ∧ select_feature_ [1, 2] (-1) = some [0, 1, 2] := by
  refine ⟨by simp, ?_⟩
  have h := (c8_select_feature_ranges [1, 2] (by simp)).1
  simpa [List.range_succ] using h

/-- C10: if every iteration's relative coefficient change stays at or above
the tolerance, the loop runs its full budget and falls through: the
coefficients hold the last computed iterate (the n-fold application of the
per-iteration update, not rolled back), `scale_`, `edof_`, `cov_` and `se_`
are exactly what they were before the loop (in particular still `None` on a
cold-start fit, since they are assigned only inside the convergence branch),
and the `acc`, `nll` and `diffs` logs each grow by exactly `n_iter` entries. -/
theorem c10_nonconvergence_keeps_stats_and_last_iterate
    (step : List ℚ → StepData) (tol : ℚ) (n : ℕ) (s : PirlsState)
    (h : ∀ b, ¬ (step b).diff < tol) :
    (pirls_loop step tol n s).scale_ = s.scale_ ∧
    (pirls_loop step tol n s).edof_ = s.edof_ ∧
    (pirls_loop step tol n s).cov_ = s.cov_ ∧
    (pirls_loop step tol n s).se_ = s.se_ ∧
    (pirls_loop step tol n s).b_ = (fun b => (step b).b_new)^[n] s.b_ ∧
    (pirls_loop step tol n s).acc.length = s.acc.length + n ∧
    (pirls_loop step tol n s).nll.length = s.nll.length + n ∧
    (pirls_loop step tol n s).diffs.length = s.diffs.length + n := by
  induction n generalizing s with
  | zero => simp [pirls_loop]
  | succ n ih =>
    rw [pirls_loop, if_neg (h s.b_)]
    have hrec := ih { s with acc := s.acc ++ [(step s.b_).acc_val],
                             nll := s.nll ++ [(step s.b_).nll_val],
                             b_ := (step s.b_).b_new,
                             diffs := s.diffs ++ [(step s.b_).diff] }
    simp only [List.length_append, List.length_cons, List.length_nil] at hrec
    refine ⟨hrec.1, hrec.2.1, hrec.2.2.1, hrec.2.2.2.1, ?_, ?_, ?_, ?_⟩
    · rw [hrec.2.2.2.2.1, Function.iterate_succ_apply]
    · rw [hrec.2.2.2.2.2.1]; omega
    · rw [hrec.2.2.2.2.2.2.1]; omega
    · rw [hrec.2.2.2.2.2.2.2]; omega

/-- C10 witness: the concrete oracle `stepW` always reports change 1, so
with tolerance 1/2 and a budget of 3 iterations starting from a cold-start
state, the statistics stay `None`, the logs have 3 entries, and the
coefficients are the third iterate. -/
theorem c10_nonconvergence_witness :
    (pirls_loop stepW (1/2) 3 pirlsInitW).scale_ = none ∧
    (pirls_loop stepW (1/2) 3 pirlsInitW).edof_ = none ∧
    (pirls_loop stepW (1/2) 3 pirlsInitW).cov_ = none ∧
    (pirls_loop stepW (1/2) 3 pirlsInitW).se_ = none ∧
    (pirls_loop stepW (1/2) 3 pirlsInitW).acc.length = 3 ∧
    (pirls_loop stepW (1/2) 3 pirlsInitW).diffs.length = 3 := by
  have h := c10_nonconvergence_keeps_stats_and_last_iterate stepW (1/2) 3 pirlsInitW
    (fun b => by norm_num [stepW])
  refine ⟨h.1, h.2.1, h.2.2.1, h.2.2.2.1, ?_, ?_⟩
  · rw [h.2.2.2.2.2.1]; rfl
  · rw [h.2.2.2.2.2.2.2]; rfl

/-- length of a Haar row: one column per augmented-knot interval. -/
theorem length_haarRow (t : List ℚ) (x : ℚ) (order : ℕ) :
    (haarRow t x order).length = t.length - 1 := by
  unfold haarRow
  split_ifs <;> simp

/-- length of one De Boor step: `len(aug_knots) - m` columns at level `m`. -/
theorem length_deBoorStep (t : List ℚ) (x : ℚ) (m : ℕ) (b : List ℚ) :
    (deBoorStep t x m b).length = t.length - m := by
  unfold deBoorStep
  simp

/-- length after folding the De Boor steps over levels `s .. s+c-1`. -/
theorem length_foldl_deBoor (t : List ℚ) (x : ℚ) :
    ∀ (c s : ℕ) (b : List ℚ), 0 < c →
      ((List.range' s c).foldl (fun bb m => deBoorStep t x m bb) b).length
        = t.length - (s + c - 1) := by
  intro c
  induction c with
  | zero => intro s b h; omega
  | succ c ih =>
    intro s b _
    rcases Nat.eq_zero_or_pos c with hc | hc
    · subst hc
      rw [List.range'_succ]
      simp [length_deBoorStep]
    · rw [List.range'_succ, List.foldl_cons, ih (s+1) _ hc]
      omega

/-- the number of basis columns produced by `b_spline_basis` depends only on
the knot count and the order: `len(knots) + order - 2` columns, whatever the
evaluation point (this is why re-building the bases at prediction time
recomputes the same `n_bases_` values that fitting stored). -/
theorem b_spline_basis_row_length (x : ℚ) (knots : List ℚ) (order : ℕ) (h : 1 ≤ order) :
    (b_spline_basis_row x knots order).length = knots.length + order - 2 := by
  unfold b_spline_basis_row
  have htlen : (augKnots knots order).length = (order - 1) + knots.length + (order - 1) := by
    simp [augKnots, sortK, List.length_insertionSort]
    omega
  rcases Nat.lt_or_ge order 2 with h2 | h2
  · have h1 : order = 1 := by omega
    subst h1
    simp only [Nat.sub_self, List.range'_zero, List.foldl_nil]
    rw [length_haarRow, htlen]
    omega
  · rw [length_foldl_deBoor _ _ (order - 1) 2 _ (by omega), htlen]
    omega

/-- C9: after a fit, calling `predict_proba` or `predict` leaves every
stored model attribute unchanged.  The hypothesis states that `n_bases_`
holds the per-feature basis-column counts derived from the stored knots and
orders (which is exactly what fitting stored: `pirls_` calls `bases_` on the
training data, and by `b_spline_basis_row_length` the column counts depend
only on knot counts and orders, not on the data).  `bases_` reassigns
`n_bases_` to the same value, and nothing else on the prediction path writes
any attribute, so the state after prediction equals the state before. -/
theorem c9_prediction_leaves_state_unchanged (s : GAMState) (X : List (List ℚ))
    (horder : ∀ o ∈ s.spline_order_, 1 ≤ o)
    (hfit : s.n_bases_ = 1 :: ((List.range (((X.headD []).length ⊓ s.knots_.length) ⊓ s.spline_order_.length)).map
      (fun f => (s.knots_.getD f []).length + s.spline_order_.getD f 1 - 2))) :
    predict_proba_state s X = s ∧ predict_state s X = s := by
  have hwidth : ∀ f, f < ((X.headD []).length ⊓ s.knots_.length) ⊓ s.spline_order_.length →
      (b_spline_basis_row ((X.headD []).getD f 0) (s.knots_.getD f []) (s.spline_order_.getD f 1)).length
        = (s.knots_.getD f []).length + s.spline_order_.getD f 1 - 2 := by
    intro f hf
    apply b_spline_basis_row_length
    apply horder
    have hf2 : f < s.spline_order_.length := lt_of_lt_of_le hf (le_trans inf_le_right le_rfl)
    rw [List.getD_eq_getElem _ _ hf2]
    exact List.getElem_mem hf2
  have hnb : (1 :: ((List.range (((X.headD []).length ⊓ s.knots_.length) ⊓ s.spline_order_.length)).map
      (fun f => (b_spline_basis_row ((X.headD []).getD f 0) (s.knots_.getD f []) (s.spline_order_.getD f 1)).length)))
      = s.n_bases_ := by
    rw [hfit]
    congr 1
    apply List.map_congr_left
    intro f hf
    rw [List.mem_range] at hf
    exact hwidth f hf
  have hmain : predict_proba_state s X = s := by
    show ({ s with n_bases_ := _ } : GAMState) = s
    rw [hnb]
  exact ⟨hmain, hmain⟩

/-- C9 witness: the theorem applied to the concrete fitted state
`gamStateW` and prediction input `gamXW`. -/
theorem c9_prediction_witness :
    predict_proba_state gamStateW gamXW = gamStateW ∧
    predict_state gamStateW gamXW = gamStateW :=
  c9_prediction_leaves_state_unchanged gamStateW gamXW
    (by intro o ho; simp [gamStateW] at ho; omega) (by rfl)

/-- C7: for a categorical feature the number of generated knots is the
number of distinct categories plus one, independent of the requested
interior-knot count; for 3 categories encoded as `{0,1,2}` the knots are the
4 boundary values `[-0.5, 0.5, 1.5, 2.5]` and the order-1 basis used for
categorical features has exactly 3 columns on them; for a continuous feature
the knots are the percentiles of the data at `n+2` evenly spaced levels from
0 to 100, hence exactly `n` knots with the two boundaries excluded. -/
theorem c7_gen_knots_counts (data : List ℚ) (n n' : ℕ) (x : ℚ) :
    (gen_knots data true n true).length = (sortK data).dedup.length + 1 ∧
    gen_knots data true n true = gen_knots data true n' true ∧
    gen_knots [0, 1, 2] true n true = [-(1:ℚ)/2, 1/2, 3/2, 5/2] ∧
    (b_spline_basis_row x (gen_knots [0, 1, 2] true n true) 1).length = 3 ∧
    gen_knots data false n true = (linspace 0 100 (n + 2)).map (percentile data) ∧
    (gen_knots data false n false).length = n := by
  have hc : gen_knots [0, 1, 2] true n true = [-(1:ℚ)/2, 1/2, 3/2, 5/2] := by
    norm_num [gen_knots, gen_knots_cat, sortK, List.insertionSort, List.orderedInsert,
      List.dedup_cons_of_not_mem, List.dedup_nil]
  refine ⟨?_, rfl, hc, ?_, rfl, ?_⟩
  · simp [gen_knots, gen_knots_cat]
  · rw [hc, b_spline_basis_row_length x _ 1 le_rfl]
    rfl
  · show ((((linspace 0 100 (n+2)).map (percentile data)).drop 1).dropLast).length = n
    rw [List.length_dropLast, List.length_drop, List.length_map]
    rw [linspace, List.length_map, List.length_range]
    omega

/-- sum of a mapped range as a `Finset` sum. -/
theorem sum_map_range (f : ℕ → ℚ) (n : ℕ) :
    ((List.range n).map f).sum = ∑ j ∈ Finset.range n, f j := by
  induction n with
  | zero => simp
  | succ n ih => rw [List.range_succ, List.map_append, List.sum_append,
      Finset.sum_range_succ, ih]; simp

/-- sum of a list as the sum of its `getD` reads. -/
theorem sum_eq_sum_getD (l : List ℚ) :
    l.sum = ∑ j ∈ Finset.range l.length, l.getD j 0 := by
  induction l with
  | nil => simp
  | cons a tl ih =>
    rw [List.sum_cons, List.length_cons, Finset.sum_range_succ' (fun j => (a :: tl).getD j 0)]
    simp only [List.getD_cons_succ, List.getD_cons_zero, ih]
    exact add_comm _ _

/-- `getD` of a mapped range. -/
theorem getD_map_range (f : ℕ → ℚ) (n j : ℕ) :
    ((List.range n).map f).getD j 0 = if j < n then f j else 0 := by
  rcases Nat.lt_or_ge j n with h | h
  · rw [if_pos h, List.getD_eq_getElem _ _ (by simpa using h)]
    simp
  · rw [if_neg (by omega), List.getD_eq_default]
    simpa using h

/-- `getD` after `List.set`. -/
theorem getD_set' (l : List ℚ) (i j : ℕ) (v : ℚ) :
    (l.set i v).getD j 0 = if i = j ∧ i < l.length then v else l.getD j 0 := by
  rw [List.getD_eq_getElem?_getD, List.getD_eq_getElem?_getD, List.getElem?_set]
  by_cases h1 : i = j
  · subst h1
    by_cases h2 : i < l.length
    · simp [h2]
    · rw [if_pos rfl, if_neg h2, if_neg (by tauto)]
      rw [List.getElem?_eq_none (by omega)]
  · rw [if_neg h1, if_neg (by tauto)]

/-- `getD` over an append. -/
theorem getD_append' (l₁ l₂ : List ℚ) (i : ℕ) :
    (l₁ ++ l₂).getD i 0 = if i < l₁.length then l₁.getD i 0 else l₂.getD (i - l₁.length) 0 := by
  rw [List.getD_eq_getElem?_getD, List.getElem?_append]
  by_cases h : i < l₁.length <;> simp [h, List.getD_eq_getElem?_getD]

/-- `getD` of a replicated list. -/
theorem getD_replicate' (n i : ℕ) (a : ℚ) :
    (List.replicate n a).getD i 0 = if i < n then a else 0 := by
  rw [List.getD_eq_getElem?_getD, List.getElem?_replicate]
  by_cases h : i < n <;> simp [h]

/-- `headD` as a `getD` read. -/
theorem headD_eq_getD (l : List ℚ) : l.headD 0 = l.getD 0 0 := by
  cases l <;> simp

/-- `getLastD` as a `getD` read. -/
theorem getLastD_eq_getD (l : List ℚ) : l.getLastD 0 = l.getD (l.length - 1) 0 := by
  cases l with
  | nil => simp
  | cons a tl =>
    rw [List.getLastD_eq_getLast?, List.getLast?_eq_getElem?,
      List.getD_eq_getElem?_getD]

/-- a sorted list is monotone under `getD` reads. -/
theorem monoD_of_sorted (t : List ℚ) (h : List.Sorted (· ≤ ·) t) : MonoD t := by
  intro i j hij hj
  rcases Nat.eq_or_lt_of_le hij with rfl | hlt
  · exact le_rfl
  · have hi : i < t.length := lt_trans hlt hj
    rw [List.getD_eq_getElem _ _ hi, List.getD_eq_getElem _ _ hj]
    exact List.Sorted.rel_get_of_lt h (by simpa using hlt)

/-- the sorted knot list is sorted. -/
theorem sortK_sorted (l : List ℚ) : List.Sorted (· ≤ ·) (sortK l) :=
  List.sorted_insertionSort _ l

/-- sorting preserves length. -/
theorem sortK_length (l : List ℚ) : (sortK l).length = l.length :=
  List.length_insertionSort _ l

/-- every element of a sorted list is at least its head. -/
theorem headD_le_of_sorted (s : List ℚ) (hs : List.Sorted (· ≤ ·) s) (y : ℚ) (hy : y ∈ s) :
    s.headD 0 ≤ y := by
  obtain ⟨i, hi, rfl⟩ := List.mem_iff_getElem.mp hy
  rw [headD_eq_getD, ← List.getD_eq_getElem s 0 hi]
  exact monoD_of_sorted s hs 0 i (Nat.zero_le i) hi

/-- every element of a sorted list is at most its last entry. -/
theorem le_getLastD_of_sorted (s : List ℚ) (hs : List.Sorted (· ≤ ·) s) (y : ℚ) (hy : y ∈ s) :
    y ≤ s.getLastD 0 := by
  obtain ⟨i, hi, rfl⟩ := List.mem_iff_getElem.mp hy
  rw [getLastD_eq_getD, ← List.getD_eq_getElem s 0 hi]
  exact monoD_of_sorted s hs i (s.length - 1) (by omega) (by omega)

/-- a sorted list's head is at most its last entry. -/
theorem headD_le_getLastD_of_sorted (s : List ℚ) (hs : List.Sorted (· ≤ ·) s) :
    s.headD 0 ≤ s.getLastD 0 := by
  cases s with
  | nil => simp
  | cons a tl =>
    rw [headD_eq_getD, getLastD_eq_getD]
    exact monoD_of_sorted _ hs 0 ((a :: tl).length - 1) (by omega)
      (by simp only [List.length_cons]; omega)

/-- the augmented knot sequence is sorted. -/
theorem sorted_augKnots (knots : List ℚ) (p : ℕ) :
    List.Sorted (· ≤ ·) (augKnots knots p) := by
  unfold augKnots
  show List.Pairwise _ _
  rw [List.pairwise_append, List.pairwise_append]
  refine ⟨⟨List.pairwise_replicate.mpr (Or.inr le_rfl), sortK_sorted knots, ?_⟩,
    List.pairwise_replicate.mpr (Or.inr le_rfl), ?_⟩
  · intro a ha y hy
    rw [List.eq_of_mem_replicate ha]
    exact headD_le_of_sorted _ (sortK_sorted knots) y hy
  · intro a ha b hb
    rw [List.eq_of_mem_replicate hb]
    rcases List.mem_append.mp ha with h | h
    · rw [List.eq_of_mem_replicate h]
      exact headD_le_getLastD_of_sorted _ (sortK_sorted knots)
    · exact le_getLastD_of_sorted _ (sortK_sorted knots) a h

/-- the augmented knot sequence is monotone under `getD`. -/
theorem monoD_augKnots (knots : List ℚ) (p : ℕ) : MonoD (augKnots knots p) :=
  monoD_of_sorted _ (sorted_augKnots knots p)

/-- length of the augmented knot sequence. -/
theorem augKnots_length (knots : List ℚ) (p : ℕ) :
    (augKnots knots p).length = knots.length + 2 * (p - 1) := by
  simp only [augKnots, List.length_append, List.length_replicate, sortK_length]
  omega

/-- reading the augmented sequence inside the left clamp gives the minimum. -/
theorem augKnots_getD_left (knots : List ℚ) (p i : ℕ) (hK : 1 ≤ knots.length)
    (hi : i ≤ p - 1) :
    (augKnots knots p).getD i 0 = (sortK knots).headD 0 := by
  unfold augKnots
  rw [getD_append', if_pos (by
    simp only [List.length_append, List.length_replicate, sortK_length]; omega)]
  rw [getD_append', List.length_replicate]
  by_cases h : i < p - 1
  · rw [if_pos h, getD_replicate', if_pos h]
  · have hieq : i = p - 1 := by omega
    subst hieq
    rw [if_neg h, Nat.sub_self, ← headD_eq_getD]

/-- reading the augmented sequence at sorted-knot position `p - 1 + i`. -/
theorem augKnots_getD_mid (knots : List ℚ) (p i : ℕ) (hi : i < knots.length) :
    (augKnots knots p).getD (p - 1 + i) 0 = (sortK knots).getD i 0 := by
  unfold augKnots
  rw [getD_append', if_pos (by
    simp only [List.length_append, List.length_replicate, sortK_length]; omega)]
  rw [getD_append', List.length_replicate, if_neg (by omega)]
  congr 1
  omega

/-- reading the augmented sequence at or beyond the last sorted-knot
position gives the maximum. -/
theorem augKnots_getD_right (knots : List ℚ) (p i : ℕ) (hK : 1 ≤ knots.length)
    (hi : (p - 1) + knots.length - 1 ≤ i) (hi2 : i < (augKnots knots p).length) :
    (augKnots knots p).getD i 0 = (sortK knots).getLastD 0 := by
  rw [augKnots_length] at hi2
  unfold augKnots
  by_cases h : i < (p - 1) + knots.length
  · rw [getD_append', if_pos (by
      simp only [List.length_append, List.length_replicate, sortK_length]; omega)]
    rw [getD_append', List.length_replicate, if_neg (by omega)]
    have hidx : i - (p - 1) = (sortK knots).length - 1 := by
      rw [sortK_length]; omega
    rw [hidx, ← getLastD_eq_getD]
  · rw [getD_append', if_neg (by
      simp only [List.length_append, List.length_replicate, sortK_length]; omega)]
    rw [getD_replicate', if_pos (by
      simp only [List.length_append, List.length_replicate, sortK_length]; omega)]

/-- telescoping of the interval indicators of a monotone knot sequence:
the first `n` indicators sum to the indicator of `[t_0, t_n)`. -/
theorem sum_indicator_intervals (t : List ℚ) (x : ℚ) (hmono : MonoD t) :
    ∀ n, n < t.length →
      (∑ j ∈ Finset.range n, (if t.getD j 0 ≤ x ∧ x < t.getD (j+1) 0 then (1:ℚ) else 0))
        = if t.getD 0 0 ≤ x ∧ x < t.getD n 0 then 1 else 0 := by
  intro n
  induction n with
  | zero =>
    intro _
    rw [Finset.sum_range_zero, if_neg]
    rintro ⟨h1, h2⟩
    exact absurd (lt_of_le_of_lt h1 h2) (lt_irrefl _)
  | succ n ih =>
    intro hn
    rw [Finset.sum_range_succ, ih (by omega)]
    by_cases hx : x < t.getD n 0
    · have hx1 : x < t.getD (n+1) 0 := lt_of_lt_of_le hx (hmono n (n+1) (by omega) hn)
      have hsecond : ¬ (t.getD n 0 ≤ x ∧ x < t.getD (n+1) 0) :=
        fun hc => absurd hx (not_lt_of_le hc.1)
      rw [if_neg hsecond, add_zero]
      by_cases h0 : t.getD 0 0 ≤ x
      · rw [if_pos ⟨h0, hx⟩, if_pos ⟨h0, hx1⟩]
      · have hfirst : ¬ (t.getD 0 0 ≤ x ∧ x < t.getD n 0) := fun hc => h0 hc.1
        have hall : ¬ (t.getD 0 0 ≤ x ∧ x < t.getD (n+1) 0) := fun hc => h0 hc.1
        rw [if_neg hfirst, if_neg hall]
    · push_neg at hx
      have h0 : t.getD 0 0 ≤ x := le_trans (hmono 0 n (by omega) (by omega)) hx
      have hfirst : ¬ (t.getD 0 0 ≤ x ∧ x < t.getD n 0) :=
        fun hc => absurd hc.2 (not_lt_of_le hx)
      rw [if_neg hfirst, zero_add]
      by_cases h1 : x < t.getD (n+1) 0
      · rw [if_pos ⟨hx, h1⟩, if_pos ⟨h0, h1⟩]
      · have hsecond : ¬ (t.getD n 0 ≤ x ∧ x < t.getD (n+1) 0) := fun hc => h1 hc.2
        have hall : ¬ (t.getD 0 0 ≤ x ∧ x < t.getD (n+1) 0) := fun hc => h1 hc.2
        rw [if_neg hsecond, if_neg hall]

/-- the Haar row sums to 1 for any evaluation point at least the minimum
knot: strictly inside the knot range exactly one indicator fires, and at or
beyond the maximum the boundary-extension write puts the single 1. -/
theorem haarRow_sum (t : List ℚ) (x : ℚ) (p : ℕ) (hmono : MonoD t)
    (hL : 2 ≤ t.length) (hp : 1 ≤ p) (hmin : t.getD 0 0 ≤ x) :
    (haarRow t x p).sum = 1 := by
  unfold haarRow
  rw [if_neg (by rw [headD_eq_getD]; exact not_lt_of_le hmin)]
  by_cases hge : t.getLastD 0 ≤ x
  · rw [if_pos hge, sum_eq_sum_getD, List.length_set, List.length_map, List.length_range]
    have hlen : ((List.range (t.length - 1)).map
        (fun j => if t.getD j 0 ≤ x ∧ x < t.getD (j+1) 0 then (1:ℚ) else 0)).length
        = t.length - 1 := by simp
    have hstep : ∀ j ∈ Finset.range (t.length - 1),
        (((List.range (t.length - 1)).map
          (fun j => if t.getD j 0 ≤ x ∧ x < t.getD (j+1) 0 then (1:ℚ) else 0)).set
            (t.length - 1 - p) 1).getD j 0
        = if (t.length - 1 - p) = j then (1:ℚ) else 0 := by
      intro j hj
      rw [Finset.mem_range] at hj
      rw [getD_set', hlen]
      by_cases hj0 : (t.length - 1 - p) = j
      · rw [if_pos ⟨hj0, by omega⟩, if_pos hj0]
      · rw [if_neg (fun hc => hj0 hc.1), if_neg hj0, getD_map_range, if_pos hj]
        rw [if_neg]
        rintro ⟨-, h2⟩
        have h3 : t.getD (j+1) 0 ≤ t.getD (t.length - 1) 0 :=
          hmono (j+1) (t.length - 1) (by omega) (by omega)
        rw [getLastD_eq_getD] at hge
        exact absurd (lt_of_lt_of_le h2 (le_trans h3 hge)) (lt_irrefl x)
    rw [Finset.sum_congr rfl hstep, Finset.sum_ite_eq (Finset.range (t.length - 1))
      (t.length - 1 - p) (fun _ => (1:ℚ))]
    rw [if_pos (Finset.mem_range.mpr (by omega))]
  · rw [if_neg hge, sum_map_range, sum_indicator_intervals t x hmono (t.length - 1) (by omega)]
    push_neg at hge
    rw [getLastD_eq_getD] at hge
    rw [if_pos ⟨hmin, hge⟩]

/-- degenerate-interval columns of the Haar row vanish, provided that when
the boundary-extension write fires its target interval is nondegenerate. -/
theorem haarRow_spanzero (t : List ℚ) (x : ℚ) (p : ℕ)
    (hmin : t.getD 0 0 ≤ x)
    (hdeg : t.getLastD 0 ≤ x →
      t.getD (t.length - 1 - p) 0 ≠ t.getD (t.length - 1 - p + 1) 0) :
    SpanZero t 1 (haarRow t x p) := by
  intro k hk heq
  have hind : ((List.range (t.length - 1)).map
      (fun j => if t.getD j 0 ≤ x ∧ x < t.getD (j+1) 0 then (1:ℚ) else 0)).getD k 0 = 0 := by
    rw [getD_map_range, if_pos (by omega), if_neg]
    rintro ⟨h1, h2⟩
    rw [← heq] at h2
    exact absurd (lt_of_le_of_lt h1 h2) (lt_irrefl _)
  unfold haarRow
  rw [if_neg (by rw [headD_eq_getD]; exact not_lt_of_le hmin)]
  by_cases hge : t.getLastD 0 ≤ x
  · rw [if_pos hge, getD_set']
    rw [if_neg, hind]
    rintro ⟨h1, -⟩
    rw [List.length_map, List.length_range] at h1
    exact hdeg hge (by rw [h1]; exact heq)
  · rw [if_neg hge, hind]

/-- one De Boor step preserves the row sum and the degenerate-span
invariant: for each retained basis the left and right blending weights sum
to one, each masked (repeated-knot) term multiplies a basis the invariant
makes zero, and the two clamped edges contribute nothing. -/
theorem deBoorStep_core (t : List ℚ) (x : ℚ) (m : ℕ) (b : List ℚ) (hmono : MonoD t)
    (hm : 2 ≤ m) (hmL : m ≤ t.length)
    (hlen : b.length = t.length - (m - 1))
    (hinv : SpanZero t (m - 1) b)
    (hclampL : t.getD 0 0 = t.getD (m - 1) 0)
    (hclampR : t.getD (t.length - m) 0 = t.getD (t.length - 1) 0) :
    (deBoorStep t x m b).sum = b.sum ∧ SpanZero t m (deBoorStep t x m b) := by
  constructor
  · unfold deBoorStep
    rw [sum_map_range]
    rw [Finset.sum_add_distrib]
    have hBA : ∀ j ∈ Finset.range (t.length - m),
        (if t.getD (j + m) 0 = t.getD (j+1) 0 then 0
         else (t.getD (j + m) 0 - x) / (t.getD (j + m) 0 - t.getD (j+1) 0) * b.getD (j+1) 0)
        = (fun k => if t.getD (k + m - 1) 0 = t.getD k 0 then 0
            else (t.getD (k + m - 1) 0 - x) / (t.getD (k + m - 1) 0 - t.getD k 0) * b.getD k 0)
            (j+1) := by
      intro j _
      have hidx : j + 1 + m - 1 = j + m := by omega
      simp only [hidx]
    rw [Finset.sum_congr rfl hBA]
    have hg0 : (if t.getD (0 + m - 1) 0 = t.getD 0 0 then (0:ℚ)
        else (t.getD (0 + m - 1) 0 - x) / (t.getD (0 + m - 1) 0 - t.getD 0 0) * b.getD 0 0)
        = 0 := by
      have hidx : 0 + m - 1 = m - 1 := by omega
      rw [hidx, if_pos hclampL.symm]
    have hgshift := Finset.sum_range_succ'
      (fun k => if t.getD (k + m - 1) 0 = t.getD k 0 then (0:ℚ)
        else (t.getD (k + m - 1) 0 - x) / (t.getD (k + m - 1) 0 - t.getD k 0) * b.getD k 0)
      (t.length - m)
    simp only [] at hgshift
    simp only []
    rw [hg0, add_zero] at hgshift
    rw [← hgshift]
    have hhM : (if t.getD ((t.length - m) + m - 1) 0 = t.getD (t.length - m) 0 then (0:ℚ)
        else (x - t.getD (t.length - m) 0) /
          (t.getD ((t.length - m) + m - 1) 0 - t.getD (t.length - m) 0)
            * b.getD (t.length - m) 0) = 0 := by
      have hidx : (t.length - m) + m - 1 = t.length - 1 := by omega
      rw [hidx, if_pos hclampR.symm]
    have hhfull := Finset.sum_range_succ
      (fun j => if t.getD (j + m - 1) 0 = t.getD j 0 then (0:ℚ)
        else (x - t.getD j 0) / (t.getD (j + m - 1) 0 - t.getD j 0) * b.getD j 0)
      (t.length - m)
    rw [hhM, add_zero] at hhfull
    rw [← hhfull, ← Finset.sum_add_distrib]
    have hpoint : ∀ j ∈ Finset.range ((t.length - m) + 1),
        ((if t.getD (j + m - 1) 0 = t.getD j 0 then (0:ℚ)
          else (x - t.getD j 0) / (t.getD (j + m - 1) 0 - t.getD j 0) * b.getD j 0) +
         (if t.getD (j + m - 1) 0 = t.getD j 0 then (0:ℚ)
          else (t.getD (j + m - 1) 0 - x) / (t.getD (j + m - 1) 0 - t.getD j 0) * b.getD j 0))
        = b.getD j 0 := by
      intro j hj
      rw [Finset.mem_range] at hj
      by_cases hc : t.getD (j + m - 1) 0 = t.getD j 0
      · rw [if_pos hc, if_pos hc, add_zero]
        have hidx : j + (m - 1) = j + m - 1 := by omega
        exact (hinv j (by omega) (by rw [hidx]; exact hc.symm)).symm
      · rw [if_neg hc, if_neg hc]
        have hD : t.getD (j + m - 1) 0 - t.getD j 0 ≠ 0 := sub_ne_zero.mpr hc
        rw [div_mul_eq_mul_div, div_mul_eq_mul_div, div_add_div_same, ← add_mul]
        have hnum : x - t.getD j 0 + (t.getD (j + m - 1) 0 - x)
            = t.getD (j + m - 1) 0 - t.getD j 0 := by ring
        rw [hnum, mul_comm, mul_div_assoc, div_self hD, mul_one]
    rw [Finset.sum_congr rfl hpoint]
    have hblen : b.length = (t.length - m) + 1 := by omega
    rw [sum_eq_sum_getD, hblen]
  · intro k hk heq
    unfold deBoorStep
    rw [getD_map_range, if_pos (by omega)]
    have hle1 : t.getD k 0 ≤ t.getD (k + m - 1) 0 := hmono k (k + m - 1) (by omega) (by omega)
    have hle2 : t.getD (k + m - 1) 0 ≤ t.getD (k + m) 0 :=
      hmono (k + m - 1) (k + m) (by omega) hk
    have h1 : t.getD (k + m - 1) 0 = t.getD k 0 :=
      le_antisymm (le_of_le_of_eq hle2 heq.symm) hle1
    have hle3 : t.getD k 0 ≤ t.getD (k + 1) 0 := hmono k (k + 1) (by omega) (by omega)
    have hle4 : t.getD (k + 1) 0 ≤ t.getD (k + m) 0 := hmono (k + 1) (k + m) (by omega) hk
    have h2 : t.getD (k + m) 0 = t.getD (k + 1) 0 :=
      le_antisymm (le_of_eq_of_le heq.symm hle3) hle4
    rw [if_pos h1, if_pos h2, add_zero]

/-- folding the De Boor steps over consecutive levels preserves the unit
row sum, starting from any level satisfying the invariant package. -/
theorem foldl_deBoor_sum (t : List ℚ) (x : ℚ) (p : ℕ) (hmono : MonoD t)
    (hclampL : ∀ m', m' ≤ p - 1 → t.getD m' 0 = t.getD 0 0)
    (hclampR : ∀ m', t.length - p ≤ m' → m' < t.length →
      t.getD m' 0 = t.getD (t.length - 1) 0)
    (hpL : p ≤ t.length) :
    ∀ (c s : ℕ) (b : List ℚ), 1 ≤ s → s + c ≤ p →
      b.length = t.length - s → SpanZero t s b → b.sum = 1 →
      ((List.range' (s + 1) c).foldl (fun bb m => deBoorStep t x m bb) b).sum = 1 := by
  intro c
  induction c with
  | zero =>
    intro s b _ _ _ _ hsum
    simpa using hsum
  | succ c ih =>
    intro s b hs hsc hlen hinv hsum
    rw [List.range'_succ, List.foldl_cons]
    have hstep := deBoorStep_core t x (s + 1) b hmono (by omega) (by omega)
      hlen hinv
      ((hclampL s (by omega)).symm)
      (hclampR (t.length - (s + 1)) (by omega) (by omega))
    exact ih (s + 1) (deBoorStep t x (s + 1) b) (by omega) (by omega)
      (length_deBoorStep t x (s + 1) b) hstep.2 (hstep.1.trans hsum)

/-- C4 (amended): each row of `b_spline_basis` sums to exactly 1 for every
spline order >= 1 and every knot vector whose minimum and maximum bound the
row's evaluation point, provided that (i) when the point sits at the maximum
knot, the largest knot is strictly greater than the second largest
(otherwise the boundary-extension one lands in a degenerate interval and the
repeated-knot masking erases it, as the counterexample shows), and (ii) the
configuration of order 1 with fewer than 3 knots is excluded (there the
below-minimum boundary-extension write of the source indexes out of bounds).
Rows below the minimum knot are excluded by the bounding hypothesis. -/
theorem c4_partition_of_unity_amended (knots : List ℚ) (order : ℕ) (x : ℚ)
    (horder : 1 ≤ order)
    (_hcfg : 2 ≤ order ∨ 3 ≤ knots.length)
    (hK : 2 ≤ knots.length)
    (hmin : (sortK knots).headD 0 ≤ x)
    (_hmax : x ≤ (sortK knots).getLastD 0)
    (hlast : x < (sortK knots).getLastD 0 ∨
      (sortK knots).getD (knots.length - 2) 0 < (sortK knots).getLastD 0) :
    (b_spline_basis_row x knots order).sum = 1 := by
  unfold b_spline_basis_row
  have hmono := monoD_augKnots knots order
  have hLlen := augKnots_length knots order
  have hK1 : 1 ≤ knots.length := by omega
  have ht0 : (augKnots knots order).getD 0 0 = (sortK knots).headD 0 :=
    augKnots_getD_left knots order 0 hK1 (by omega)
  have htlast : (augKnots knots order).getD ((augKnots knots order).length - 1) 0
      = (sortK knots).getLastD 0 :=
    augKnots_getD_right knots order _ hK1 (by rw [hLlen]; omega) (by omega)
  have hmin' : (augKnots knots order).getD 0 0 ≤ x := by rw [ht0]; exact hmin
  have hL2 : 2 ≤ (augKnots knots order).length := by rw [hLlen]; omega
  have hcl : ∀ m', m' ≤ order - 1 →
      (augKnots knots order).getD m' 0 = (augKnots knots order).getD 0 0 := by
    intro m' hm'
    rw [augKnots_getD_left knots order m' hK1 hm', ht0]
  have hcr : ∀ m', (augKnots knots order).length - order ≤ m' →
      m' < (augKnots knots order).length →
      (augKnots knots order).getD m' 0
        = (augKnots knots order).getD ((augKnots knots order).length - 1) 0 := by
    intro m' h1 h2
    rw [augKnots_getD_right knots order m' hK1 (by rw [hLlen] at h1; omega) h2, htlast]
  have hdeg : (augKnots knots order).getLastD 0 ≤ x →
      (augKnots knots order).getD ((augKnots knots order).length - 1 - order) 0
        ≠ (augKnots knots order).getD ((augKnots knots order).length - 1 - order + 1) 0 := by
    intro hge
    rw [getLastD_eq_getD, htlast] at hge
    have hsecond : (sortK knots).getD (knots.length - 2) 0 < (sortK knots).getLastD 0 := by
      rcases hlast with h | h
      · exact absurd (lt_of_le_of_lt hge h) (lt_irrefl _)
      · exact h
    have hi1 : (augKnots knots order).length - 1 - order = (order - 1) + (knots.length - 2) := by
      rw [hLlen]; omega
    have hi2 : (order - 1) + (knots.length - 2) + 1
        = (order - 1) + (knots.length - 1) := by
      omega
    rw [hi1, hi2, augKnots_getD_mid knots order _ (by omega),
      augKnots_getD_mid knots order _ (by omega)]
    rw [getLastD_eq_getD, sortK_length] at hsecond
    exact ne_of_lt hsecond
  have hhaar_sum := haarRow_sum (augKnots knots order) x order hmono hL2 horder hmin'
  have hhaar_inv := haarRow_spanzero (augKnots knots order) x order hmin' hdeg
  have hhaar_len := length_haarRow (augKnots knots order) x order
  exact foldl_deBoor_sum (augKnots knots order) x order hmono hcl hcr
    (by rw [hLlen]; omega) (order - 1) 1 _ le_rfl (by omega) hhaar_len hhaar_inv hhaar_sum

/-- C4 witness: the amended theorem applied to the knot vector `[0, 1, 2]`
at order 2 and evaluation point 1 (which the knots bound strictly inside). -/
theorem c4_partition_witness :
    ((sortK [0, 1, 2]).headD 0 ≤ (1:ℚ)) ∧ ((1:ℚ) < (sortK [0, 1, 2]).getLastD 0) ∧
    (b_spline_basis_row 1 [0, 1, 2] 2).sum = 1 :=
  ⟨by decide, by decide,
    c4_partition_of_unity_amended [0, 1, 2] 2 1 (by norm_num) (Or.inl (by norm_num))
      (by norm_num) (by decide) (by decide) (Or.inl (by decide))⟩
